import Mathlib

/-!
Shallow embedding of the neon-core wallet `Balance` module
(`src/packages/neon-core/src/wallet/Balance.ts`).

Conventions of the embedding:
* `Fixed8` (8-decimal fixed point, opaque numeric with add/equality) is modelled as an
  exact integer count of 10^-8 units (`Val := Int`).
* JS objects with string keys are modelled as insertion-ordered association lists with
  unique keys; `obj[k] = v` replaces in place when the key exists and appends otherwise.
* Stateful methods become pure functions returning the new `Balance`; code paths that
  throw a JS `TypeError` (dereferencing `undefined`) return `Except.error .typeError`.
* `Coin`, `AssetBalance` and the `ASSETS` registry live outside `src/` (only their
  types and the spec describe them); they are modelled from the spec where marked.
-/

/-- Monetary values: `Fixed8` modelled as an exact integer count of 10^-8 units. -/
abbrev Val := Int

/-- Modelled from the spec: `Coin` value object (wallet/components/Coin, not under
`src/`): one transaction output, identity `(txid, index)` plus a `value`. -/
structure Coin where
  index : Nat
  txid : String
  value : Val
deriving DecidableEq

/-- Coin identity: (source transaction id, output index). -/
def cid (c : Coin) : String × Nat := (c.txid, c.index)

/-- Modelled from the spec: `AssetBalance` (wallet/components/AssetBalance, not under
`src/`): three coin lists plus a cached `balance` that always equals the sum of the
`unspent` values — the spec states it is recomputed on construction and on every
mutation that touches `unspent`, so every operation below that changes `unspent`
re-derives `balance` from the new list. -/
structure AssetBalance where
  balance : Val
  unspent : List Coin
  spent : List Coin
  unconfirmed : List Coin
deriving DecidableEq

/-- Sum of the values of a list of coins. -/
def sumVals (l : List Coin) : Val := (l.map Coin.value).sum

/-- All coins tracked by an AssetBalance, in list order unspent, spent, unconfirmed. -/
def AssetBalance.allCoins (ab : AssetBalance) : List Coin :=
  ab.unspent ++ ab.spent ++ ab.unconfirmed

/-- Modelled from the spec: an `AssetBalance` snapshot (`AssetBalanceLike`) whose
fields are all optional (TS `Partial`). -/
structure AssetBalanceLike where
  balance : Option Val
  unspent : Option (List Coin)
  spent : Option (List Coin)
  unconfirmed : Option (List Coin)
deriving DecidableEq

/-- Modelled from the spec: the `AssetBalance` constructor — missing fields default to
zero/empty, the cached balance is recomputed from the `unspent` list (the snapshot's
own `balance` field is not trusted), `new AssetBalance(undefined)` gives the zeroed
balance. -/
def mkAssetBalance (abl : Option AssetBalanceLike) : AssetBalance :=
  let u := (abl.bind AssetBalanceLike.unspent).getD []
  let s := (abl.bind AssetBalanceLike.spent).getD []
  let c := (abl.bind AssetBalanceLike.unconfirmed).getD []
  ⟨sumVals u, u, s, c⟩

/-- Executable model of JS `String.prototype.toUpperCase` on the symbols used here:
upper-case every character (the library `String.toUpper` is the same map but is
defined by well-founded recursion, which the kernel cannot evaluate). -/
def jsToUpper (s : String) : String := ⟨s.data.map Char.toUpper⟩

/-- JS object assignment `obj[k] = v` on an insertion-ordered association list:
replace in place when the key is present, append otherwise. -/
def setA (k : String) (v : α) : List (String × α) → List (String × α)
  | [] => [(k, v)]
  | (k', v') :: rest => if k' = k then (k, v) :: rest else (k', v') :: setA k v rest

/-- JS property read `obj[k]`: first (unique) binding of the key, if any. -/
def lookupA (k : String) : List (String × α) → Option α
  | [] => none
  | (k', v) :: rest => if k' = k then some v else lookupA k rest

/-- The `Balance` aggregate (`Balance.ts` lines 18-24). -/
structure Balance where
  address : String
  net : String
  assetSymbols : List String
  assets : List (String × AssetBalance)
  tokenSymbols : List String
  tokens : List (String × Val)
deriving DecidableEq

/-- The plain snapshot record `BalanceLike` (`Balance.ts` lines 9-16); an absent
optional field is modelled by `""` / `[]`, which the constructor treats the same way
as JS treats the missing field here. -/
structure BalanceLike where
  address : String
  net : String
  assetSymbols : List String
  assets : List (String × AssetBalanceLike)
  tokenSymbols : List String
  tokens : List (String × Val)
deriving DecidableEq

/-- `Balance.addAsset` (lines 65-71): upper-case the symbol, append it to
`assetSymbols` unconditionally, store a freshly normalized AssetBalance. -/
def Balance.addAsset (b : Balance) (sym : String) (abl : Option AssetBalanceLike) :
    Balance :=
  let s := jsToUpper sym
  { b with
    assetSymbols := b.assetSymbols ++ [s]
    assets := setA s (mkAssetBalance abl) b.assets }

/-- `Balance.addToken` (lines 79-84): upper-case the symbol, append it to
`tokenSymbols` unconditionally, store the coerced amount. -/
def Balance.addToken (b : Balance) (sym : String) (amount : Val) : Balance :=
  let s := jsToUpper sym
  { b with
    tokenSymbols := b.tokenSymbols ++ [s]
    tokens := setA s amount b.tokens }

/-- The `Balance` constructor (lines 26-53): address as given (default `""`), net
defaults to `"NoNet"` when falsy, then `assetSymbols`/`assets` are rebuilt by
`addAsset` over the snapshot's `assets` keys in order (the snapshot's own
`assetSymbols` list is ignored), then tokens via `addToken`. -/
def ofLike (bl : BalanceLike) : Balance :=
  let b0 : Balance :=
    { address := bl.address
      net := if bl.net = "" then "NoNet" else bl.net
      assetSymbols := []
      assets := []
      tokenSymbols := []
      tokens := [] }
  let b1 := bl.assets.foldl (fun b p => b.addAsset p.1 (some p.2)) b0
  bl.tokens.foldl (fun b p => b.addToken p.1 p.2) b1

/-- `new Balance({})`. -/
def emptyBalance : Balance := ofLike ⟨"", "", [], [], [], []⟩

/-- A transaction input: reference to a prior output (`tx/transaction` input shape,
fields `prevHash`, `prevIndex` as read by `applyTx`). -/
structure TxInput where
  prevHash : String
  prevIndex : Nat
deriving DecidableEq

/-- A transaction output as read by `applyTx`: asset id and value. -/
structure TxOutput where
  assetId : String
  value : Val
deriving DecidableEq

/-- A transaction as consumed by `Balance`: content hash and ordered inputs/outputs
(the spec's opaque transaction object; deserialization is out of scope). -/
structure Tx where
  hash : String
  inputs : List TxInput
  outputs : List TxOutput
deriving DecidableEq

/-- Modelled from the spec: the static asset-id-to-symbol registry (`consts.ASSETS`,
not under `src/`); the two protocol asset ids are opaque strings here. -/
def neoAssetId : String := "NEO_ASSET_ID"

/-- Modelled from the spec: opaque id of the GAS asset in the static registry. -/
def gasAssetId : String := "GAS_ASSET_ID"

/-- Modelled from the spec: registry lookup `ASSETS[assetId]`. -/
def ASSETS (id : String) : Option String :=
  if id = neoAssetId then some "NEO"
  else if id = gasAssetId then some "GAS"
  else none

/-- A JS runtime exception (the `TypeError` raised by dereferencing `undefined`). -/
inductive JsErr where
  | typeError
deriving DecidableEq

/-- `arr.findIndex(p)` followed by `arr.splice(ind, 1)`: remove the first element
satisfying `p`, returning it and the remaining list; `none` when nothing matches
(`findIndex` returned `-1`). -/
def spliceFirst (p : α → Bool) : List α → Option (α × List α)
  | [] => none
  | x :: xs =>
    if p x then some (x, xs)
    else (spliceFirst p xs).map (fun q => (q.1, x :: q.2))

/-- The spend-phase predicate (lines 100-101): coin identity equals the input's
prior-output reference. -/
def inputMatch (inp : TxInput) (el : Coin) : Bool :=
  el.txid == inp.prevHash && el.index == inp.prevIndex

/-- Spend one matching coin of an AssetBalance (lines 104-107): remove it from
`unspent` at the first matching index, append it to `spent`; the cached balance is
recomputed from the new `unspent` list. `none` when `unspent` has no match. -/
def AssetBalance.spendFirst (ab : AssetBalance) (p : Coin → Bool) :
    Option AssetBalance :=
  (spliceFirst p ab.unspent).map (fun q =>
    ⟨sumVals q.2, q.2, ab.spent ++ [q.1], ab.unconfirmed⟩)

/-- Spend-phase inner loop of `applyTx` (lines 102-110): scan symbols in stored
order; the first AssetBalance whose `unspent` holds a matching coin moves it to
`spent` and the scan stops; no match anywhere leaves the map unchanged. A symbol
without a map entry makes the source dereference `undefined` (TypeError). -/
def spendSyms (inp : TxInput) : List String → List (String × AssetBalance) →
    Except JsErr (List (String × AssetBalance))
  | [], a => .ok a
  | s :: rest, a =>
    match lookupA s a with
    | none => .error .typeError
    | some ab =>
      match ab.spendFirst (inputMatch inp) with
      | some ab' => .ok (setA s ab' a)
      | none => spendSyms inp rest a

/-- Spend phase of `applyTx` (lines 99-111): the inner scan, once per input. -/
def spendPhase (syms : List String) : List TxInput → List (String × AssetBalance) →
    Except JsErr (List (String × AssetBalance))
  | [], a => .ok a
  | inp :: rest, a =>
    match spendSyms inp syms a with
    | .error e => .error e
    | .ok a' => spendPhase syms rest a'

/-- Receive phase of `applyTx` (lines 113-141), one output at position `i`.
For an output whose asset id is not in the registry, the source calls
`addAsset(undefined)` which throws on `undefined.toUpperCase()`. For an output whose
registry symbol has no map entry, the source calls `this.addAsset(sym)` but then
dereferences the stale local `assetBalance` — still `undefined` — so it throws a
TypeError (lines 118-121 and 126/135); the state mutated before a throw is
discarded by the `Except` model, as the whole `applyTx` call fails. -/
def applyOutputs (hash : String) (confirmed : Bool) :
    Nat → List TxOutput → List (String × AssetBalance) →
    Except JsErr (List (String × AssetBalance))
  | _, [], a => .ok a
  | i, o :: rest, a =>
    match ASSETS o.assetId with
    | none => .error .typeError
    | some sym =>
      match lookupA sym a with
      | none => .error .typeError
      | some ab =>
        let coin : Coin := ⟨i, hash, o.value⟩
        let ab' :=
          if confirmed then
            let ab₁ :=
              match spliceFirst
                  (fun el => el.txid == coin.txid && el.index == coin.index)
                  ab.unconfirmed with
              | some q => { ab with unconfirmed := q.2 }
              | none => ab
            { ab₁ with
              unspent := ab₁.unspent ++ [coin]
              balance := sumVals (ab₁.unspent ++ [coin]) }
          else
            { ab with unconfirmed := ab.unconfirmed ++ [coin] }
        applyOutputs hash confirmed (i + 1) rest (setA sym ab' a)

/-- `Balance.applyTx` (lines 92-144): spend phase over the inputs, then receive
phase over the outputs; returns the mutated Balance. -/
def Balance.applyTx (b : Balance) (tx : Tx) (confirmed : Bool) :
    Except JsErr Balance :=
  match spendPhase b.assetSymbols tx.inputs b.assets with
  | .error e => .error e
  | .ok a₁ =>
    match applyOutputs tx.hash confirmed 0 tx.outputs a₁ with
    | .error e => .error e
    | .ok a₂ => .ok { b with assets := a₂ }

/-- One asset's confirmation step (lines 152-156): `unspent ++= unconfirmed`,
`unconfirmed := []`, cached balance recomputed. -/
def drain (ab : AssetBalance) : AssetBalance :=
  ⟨sumVals (ab.unspent ++ ab.unconfirmed), ab.unspent ++ ab.unconfirmed, ab.spent, []⟩

/-- Loop of `Balance.confirm` (lines 151-157) over the stored symbol order; a symbol
without a map entry dereferences `undefined` (TypeError). -/
def confirmGo : List String → List (String × AssetBalance) →
    Except JsErr (List (String × AssetBalance))
  | [], a => .ok a
  | s :: rest, a =>
    match lookupA s a with
    | none => .error .typeError
    | some ab => confirmGo rest (setA s (drain ab) a)

/-- `Balance.confirm` (lines 150-159). -/
def Balance.confirm (b : Balance) : Except JsErr Balance :=
  match confirmGo b.assetSymbols b.assets with
  | .error e => .error e
  | .ok a => .ok { b with assets := a }

/-- `AssetBalance.export` (modelled from the spec: the snapshot with all fields
present; the numeric balance read through the cached-sum contract). Source name
`export` is a Lean keyword, hence `exportB`. -/
def AssetBalance.exportB (ab : AssetBalance) : AssetBalanceLike :=
  ⟨some ab.balance, some ab.unspent, some ab.spent, some ab.unconfirmed⟩

/-- `Balance.export` (lines 164-173): plain snapshot of all fields; `exportAssets`
maps `AssetBalance.export` over the entries, `exportTokens` is `toNumber` on each
amount (exact in the integer model of Fixed8). Source name `export` is a Lean
keyword, hence `exportB`. -/
def Balance.exportB (b : Balance) : BalanceLike :=
  { address := b.address
    net := b.net
    assetSymbols := b.assetSymbols
    assets := b.assets.map (fun p => (p.1, p.2.exportB))
    tokenSymbols := b.tokenSymbols
    tokens := b.tokens }

/-- The result object of the remote `getTxOut` query: reported output index `n` and
reported `value`. -/
structure TxOutResult where
  n : Nat
  value : Val
deriving DecidableEq

/-- The remote Verifier capability (`Query.getTxOut(txid, index).execute(url)`):
either a transport failure, or the reported output (`none` when it does not exist). -/
def Oracle : Type := String → Nat → Except JsErr (Option TxOutResult)

/-- `verifyCoin` (lines 235-241): false when the node reports no output, otherwise
true iff the reported index and value both match the coin exactly. -/
def verifyCoin (o : Oracle) (c : Coin) : Except JsErr Bool :=
  match o c.txid c.index with
  | .error e => .error e
  | .ok none => .ok false
  | .ok (some r) => .ok (c.index == r.n && c.value == r.value)

/-- `verifyCoins` (lines 230-233): `Promise.all` over the per-coin queries — all
results in order when every query succeeds, a failure otherwise. -/
def verifyCoins (o : Oracle) : List Coin → Except JsErr (List Bool)
  | [] => .ok []
  | c :: rest =>
    match verifyCoin o c with
    | .error e => .error e
    | .ok v =>
      match verifyCoins o rest with
      | .error e => .error e
      | .ok vs => .ok (v :: vs)

/-- The forEach of `verifyAssetBalance` (lines 215-223): split the unspent coins by
their verification verdict, keeping order. -/
def buildRepl : List Coin → List Bool → List Coin × List Coin
  | _, [] => ([], [])
  | [], _ :: _ => ([], [])
  | c :: cs, v :: vs =>
    let q := buildRepl cs vs
    if v then (c :: q.1, q.2) else (q.1, c :: q.2)

/-- `verifyAssetBalance` (lines 204-225): verify the unspent coins, then build the
replacement AssetBalance — valid coins become its `unspent` (balance their sum),
invalid coins its `spent`, `unconfirmed` reset to empty. -/
def verifyAssetBalance (o : Oracle) (ab : AssetBalance) :
    Except JsErr AssetBalance :=
  match verifyCoins o ab.unspent with
  | .error e => .error e
  | .ok valids =>
    let q := buildRepl ab.unspent valids
    .ok ⟨sumVals q.1, q.1, q.2, []⟩

/-- The fan-out of `Balance.verifyAssets` (lines 181-186): one `verifyAssetBalance`
per stored symbol, reading every AssetBalance from the map as it was when the
promises were created; `Promise.all` semantics as in `verifyCoins`. -/
def verifyAll (o : Oracle) (a : List (String × AssetBalance)) :
    List String → Except JsErr (List AssetBalance)
  | [] => .ok []
  | s :: rest =>
    match lookupA s a with
    | none => .error .typeError
    | some ab =>
      match verifyAssetBalance o ab with
      | .error e => .error e
      | .ok ab' =>
        match verifyAll o a rest with
        | .error e => .error e
        | .ok abs => .ok (ab' :: abs)

/-- `Balance.verifyAssets` (lines 180-193): when every per-symbol verification
succeeds, assign each replacement into the map (lines 188-190) and return the
Balance; a failure rejects the whole call before any assignment happens. -/
def Balance.verifyAssets (b : Balance) (o : Oracle) : Except JsErr Balance :=
  match verifyAll o b.assets b.assetSymbols with
  | .error e => .error e
  | .ok news =>
    .ok { b with
          assets := (b.assetSymbols.zip news).foldl (fun a p => setA p.1 p.2 a)
            b.assets }

/-- A coin is classified valid by verification: the query succeeded and the node
reported an existing output whose index and value match the coin exactly. -/
def coinValid (o : Oracle) (c : Coin) : Bool :=
  match o c.txid c.index with
  | .ok (some r) => c.index == r.n && c.value == r.value
  | _ => false

/-- The replacement AssetBalance that `verifyAssetBalance` produces on success:
valid former-unspent coins in `unspent` (balance their sum), invalid ones in
`spent`, `unconfirmed` reset to empty. -/
def replAB (o : Oracle) (ab : AssetBalance) : AssetBalance :=
  ⟨sumVals (ab.unspent.filter (coinValid o)), ab.unspent.filter (coinValid o),
    ab.unspent.filter (fun c => !(coinValid o c)), []⟩

/-- The cached-balance invariant of one AssetBalance: `balance` is the sum of the
`unspent` values. -/
def NormAB (ab : AssetBalance) : Prop := ab.balance = sumVals ab.unspent

/-- Global coin-identity uniqueness inside one AssetBalance: no identity occurs
twice across (or within) `unspent`, `spent`, `unconfirmed`. -/
def DisjAB (ab : AssetBalance) : Prop := (ab.allCoins.map cid).Nodup

/-- Balance states reachable from any constructed Balance by the public mutators,
counting the runs that terminate normally. -/
inductive Reach : Balance → Prop where
  | base (bl : BalanceLike) : Reach (ofLike bl)
  | addAsset {b : Balance} (sym : String) (abl : Option AssetBalanceLike) :
      Reach b → Reach (b.addAsset sym abl)
  | addToken {b : Balance} (sym : String) (v : Val) :
      Reach b → Reach (b.addToken sym v)
  | applyTx {b b' : Balance} (tx : Tx) (cf : Bool) :
      Reach b → b.applyTx tx cf = .ok b' → Reach b'
  | confirm {b b' : Balance} : Reach b → b.confirm = .ok b' → Reach b'
  | verify {b b' : Balance} (o : Oracle) :
      Reach b → b.verifyAssets o = .ok b' → Reach b'

/-- Balance states reachable from the empty Balance by `addAsset`, `applyTx` and
`confirm` alone (the reachability used by the coin-disjointness claim). -/
inductive ReachE : Balance → Prop where
  | empty : ReachE emptyBalance
  | addAsset {b : Balance} (sym : String) (abl : Option AssetBalanceLike) :
      ReachE b → ReachE (b.addAsset sym abl)
  | applyTx {b b' : Balance} (tx : Tx) (cf : Bool) :
      ReachE b → b.applyTx tx cf = .ok b' → ReachE b'
  | confirm {b b' : Balance} : ReachE b → b.confirm = .ok b' → ReachE b'

/-- An initial AssetBalance snapshot whose coin identities are globally unique. -/
def ablDisjoint (abl : Option AssetBalanceLike) : Prop :=
  DisjAB (mkAssetBalance abl)

/-- The caller contract stated by the spec for repeated application: the
transaction's hash is fresh, i.e. no currently tracked coin stems from it. -/
def freshTx (b : Balance) (tx : Tx) : Prop :=
  ∀ p ∈ b.assets, ∀ c ∈ p.2.allCoins, c.txid ≠ tx.hash

/-- Balance states reachable from the empty Balance by `addAsset` restricted to
identity-disjoint snapshots, `applyTx` restricted to fresh transaction hashes
(callers deduplicate by hash, as the spec demands), and `confirm`. -/
inductive ReachF : Balance → Prop where
  | empty : ReachF emptyBalance
  | addAsset {b : Balance} (sym : String) (abl : Option AssetBalanceLike) :
      ReachF b → ablDisjoint abl → ReachF (b.addAsset sym abl)
  | applyTx {b b' : Balance} (tx : Tx) (cf : Bool) :
      ReachF b → freshTx b tx → b.applyTx tx cf = .ok b' → ReachF b'
  | confirm {b b' : Balance} : ReachF b → b.confirm = .ok b' → ReachF b'

/-- Concrete data: the Scenario-A transaction — no inputs, one output of 10 GAS. -/
def txA : Tx := ⟨"tx1", [], [⟨gasAssetId, 10⟩]⟩

/-- Concrete data: the empty Balance with a zeroed GAS AssetBalance added. -/
def bGas : Balance := emptyBalance.addAsset "GAS" none

/-- Concrete data: a one-output GAS transaction used for re-application. -/
def txG : Tx := ⟨"txG", [], [⟨gasAssetId, 10⟩]⟩

/-- Concrete data: `bGas` after applying `txG` confirmed. -/
def b1c : Balance := (bGas.applyTx txG true).toOption.getD bGas

/-- Concrete data: the GAS AssetBalance of `b1c`. -/
def ab1c : AssetBalance := ⟨10, [⟨0, "txG", 10⟩], [], []⟩

/-- Concrete data: `b1c` after re-applying `txG` unconfirmed. -/
def b2c : Balance := (b1c.applyTx txG false).toOption.getD b1c

/-- Concrete data: the GAS AssetBalance of `b2c` — the coin identity ("txG", 0)
sits in `unspent` and in `unconfirmed` at the same time. -/
def ab2c : AssetBalance := ⟨10, [⟨0, "txG", 10⟩], [], [⟨0, "txG", 10⟩]⟩

/-- Concrete data: the Scenario-D coin of value 5. -/
def coinD : Coin := ⟨0, "txD", 5⟩

/-- Concrete data: a Balance holding one unspent GAS coin of value 5. -/
def bD : Balance := emptyBalance.addAsset "GAS" (some ⟨none, some [coinD], none, none⟩)

/-- Concrete data: the Verifier that reports every output as nonexistent. -/
def oracleD : Oracle := fun _ _ => .ok none

/-- Concrete data: `bD` after `verifyAssets` against `oracleD`. -/
def bD' : Balance := (bD.verifyAssets oracleD).toOption.getD bD

/-- Concrete data: the Verifier whose every query fails with a transport error. -/
def oracleF : Oracle := fun _ _ => .error .typeError

/-- Concrete data: a coin sitting in `spent` before verification. -/
def coinS : Coin := ⟨1, "txS", 7⟩

/-- Concrete data: a Balance with one unspent and one already-spent GAS coin. -/
def bE : Balance :=
  emptyBalance.addAsset "GAS" (some ⟨none, some [coinD], some [coinS], none⟩)

/-- Concrete data: `bE` after `verifyAssets` against `oracleD`. -/
def bE' : Balance := (bE.verifyAssets oracleD).toOption.getD bE

/-- Concrete data: Scenario E — the same asset symbol added twice. -/
def bDup : Balance := (emptyBalance.addAsset "GAS" none).addAsset "GAS" none

/-- Concrete data: a canonical Balance used to witness the round-trip. -/
def bW2 : Balance :=
  ⟨"addr", "MainNet", ["GAS"], [("GAS", ⟨5, [⟨0, "t", 5⟩], [], []⟩)],
    ["RPX"], [("RPX", 3)]⟩

/-- Concrete data: an input matching the coin held by `ab1c`. -/
def inpW : TxInput := ⟨"txG", 0⟩

/-- Concrete data: an asset map where the first scanned symbol has no match and the
second holds the referenced coin. -/
def assetsW : List (String × AssetBalance) :=
  [("NEO", ⟨0, [], [], []⟩), ("GAS", ab1c)]

example : emptyBalance = ⟨"", "NoNet", [], [], [], []⟩ := by decide

example : emptyBalance.applyTx txA false = .error .typeError := rfl

example : b1c = ⟨"", "NoNet", ["GAS"], [("GAS", ab1c)], [], []⟩ := by decide

example : b2c = ⟨"", "NoNet", ["GAS"], [("GAS", ab2c)], [], []⟩ := by decide

example : bD' = ⟨"", "NoNet", ["GAS"], [("GAS", ⟨0, [], [coinD], []⟩)], [], []⟩ := by
  decide

example : bE' = ⟨"", "NoNet", ["GAS"], [("GAS", ⟨0, [], [coinD], []⟩)], [], []⟩ := by
  decide

example : ofLike bDup.exportB = ⟨"", "NoNet", ["GAS"], [("GAS", ⟨0, [], [], []⟩)], [], []⟩ := by
  decide

example : jsToUpper "gas" = "GAS" := by decide

example : b2c.confirm = .ok ⟨"", "NoNet", ["GAS"],
    [("GAS", ⟨20, [⟨0, "txG", 10⟩, ⟨0, "txG", 10⟩], [], []⟩)], [], []⟩ := rfl

theorem setA_mem {α : Type} {k : String} {v : α} {x : String × α}
    {l : List (String × α)} (h : x ∈ setA k v l) : x = (k, v) ∨ x ∈ l := by
  induction l with
  | nil =>
      simp only [setA, List.mem_singleton] at h
      exact Or.inl h
  | cons p rest ih =>
      by_cases hk : p.1 = k
      · rw [show (p :: rest : List (String × α)) = (p.1, p.2) :: rest from rfl] at h
        simp only [setA, if_pos hk, List.mem_cons] at h
        rcases h with h | h
        · exact Or.inl h
        · exact Or.inr (List.mem_cons_of_mem _ h)
      · rw [show (p :: rest : List (String × α)) = (p.1, p.2) :: rest from rfl] at h
        simp only [setA, if_neg hk, List.mem_cons] at h
        rcases h with h | h
        · exact Or.inr (by simp [h])
        · rcases ih h with h' | h'
          · exact Or.inl h'
          · exact Or.inr (List.mem_cons_of_mem _ h')

theorem lookupA_setA_self {α : Type} (k : String) (v : α) (l : List (String × α)) :
    lookupA k (setA k v l) = some v := by
  induction l with
  | nil => simp [setA, lookupA]
  | cons p rest ih =>
      by_cases hk : p.1 = k
      · simp [setA, lookupA, hk]
      · simp [setA, lookupA, hk, ih]

theorem lookupA_setA_ne {α : Type} {k k' : String} (h : k' ≠ k) (v : α)
    (l : List (String × α)) : lookupA k' (setA k v l) = lookupA k' l := by
  induction l with
  | nil =>
      simp only [setA, lookupA]
      rw [if_neg (fun hh => h hh.symm)]
  | cons p rest ih =>
      rcases p with ⟨p1, p2⟩
      by_cases hk : p1 = k
      · subst hk
        simp only [setA, if_pos rfl, lookupA]
        rw [if_neg (fun hh => h hh.symm), if_neg (fun hh => h hh.symm)]
      · simp only [setA, if_neg hk, lookupA, ih]

theorem lookupA_mem {α : Type} {k : String} {v : α} {l : List (String × α)}
    (h : lookupA k l = some v) : (k, v) ∈ l := by
  induction l with
  | nil => simp [lookupA] at h
  | cons p rest ih =>
      by_cases hk : p.1 = k
      · rw [show (p :: rest : List (String × α)) = (p.1, p.2) :: rest from rfl]
        simp only [lookupA, if_pos hk] at h
        cases h
        simp [hk]
      · rw [show (p :: rest : List (String × α)) = (p.1, p.2) :: rest from rfl]
        simp only [lookupA, if_neg hk] at h
        exact List.mem_cons_of_mem _ (ih h)

theorem isSome_lookupA_setA {α : Type} {k k' : String} {v : α}
    {l : List (String × α)} (h : (lookupA k' l).isSome) :
    (lookupA k' (setA k v l)).isSome := by
  by_cases hk : k' = k
  · subst hk
    simp [lookupA_setA_self]
  · rwa [lookupA_setA_ne hk]

theorem spliceFirst_eq_none {α : Type} {p : α → Bool} {l : List α} :
    spliceFirst p l = none ↔ ∀ x ∈ l, p x = false := by
  induction l with
  | nil => simp [spliceFirst]
  | cons x xs ih =>
      by_cases hx : p x
      · simp [spliceFirst, hx]
      · simp only [spliceFirst, if_neg hx, Option.map_eq_none', ih, List.mem_cons]
        constructor
        · intro h y hy
          rcases hy with hy | hy
          · subst hy
            exact Bool.eq_false_iff.mpr hx
          · exact h y hy
        · intro h y hy
          exact h y (Or.inr hy)

theorem spliceFirst_perm {α : Type} {p : α → Bool} :
    ∀ {l rest : List α} {c : α}, spliceFirst p l = some (c, rest) →
      l.Perm (c :: rest)
  | [], rest, c, h => by simp [spliceFirst] at h
  | x :: xs, rest, c, h => by
      by_cases hx : p x
      · simp only [spliceFirst, if_pos hx, Option.some.injEq, Prod.mk.injEq] at h
        rw [h.1, h.2]
      · simp only [spliceFirst, if_neg hx, Option.map_eq_some'] at h
        rcases h with ⟨⟨c', rest'⟩, hq, heq⟩
        simp only [Prod.mk.injEq] at heq
        rcases heq with ⟨hc, hr⟩
        subst hc
        subst hr
        exact (List.Perm.cons x (spliceFirst_perm hq)).trans
          (List.Perm.swap c' x rest')

theorem spliceFirst_pred {α : Type} {p : α → Bool} :
    ∀ {l rest : List α} {c : α}, spliceFirst p l = some (c, rest) → p c = true
  | [], rest, c, h => by simp [spliceFirst] at h
  | x :: xs, rest, c, h => by
      by_cases hx : p x
      · simp only [spliceFirst, if_pos hx, Option.some.injEq, Prod.mk.injEq] at h
        rw [h.1] at hx
        exact hx
      · simp only [spliceFirst, if_neg hx, Option.map_eq_some'] at h
        rcases h with ⟨⟨c', rest'⟩, hq, heq⟩
        simp only [Prod.mk.injEq] at heq
        rcases heq with ⟨hc, hr⟩
        subst hc
        exact spliceFirst_pred hq

/-- C1: on an empty Balance, applying an unconfirmed transaction with one output of
10 units of the asset whose registry symbol is "GAS" is supposed to create a zeroed
AssetBalance and append the coin to its `unconfirmed`; the code instead throws a
TypeError, because after `addAsset(sym)` (line 120) it dereferences the stale local
`assetBalance`, which is still `undefined` (line 135). The claim holds for the
intended behaviour and fails on the code: code bug. -/
theorem C1_scenarioA_throws :
    lookupA "GAS" emptyBalance.assets = none ∧ ASSETS gasAssetId = some "GAS" ∧
      emptyBalance.applyTx txA false = Except.error JsErr.typeError :=
  ⟨rfl, rfl, rfl⟩

/-- C2: `applyTx` is claimed never to raise when all output asset ids are in the
registry, and in particular an output for a not-yet-tracked symbol is claimed not to
be an error; the code throws a TypeError in exactly that case (stale `assetBalance`
local after `addAsset`, lines 118-126), for either value of the confirmed flag:
code bug. -/
theorem C2_applyTx_untracked_output_throws :
    emptyBalance.applyTx txA true = Except.error JsErr.typeError := rfl

/-- C6 fails as stated: from the empty Balance, add the asset "GAS", apply the
one-output transaction `txG` confirmed, then apply the same transaction again
unconfirmed — a sequence of `addAsset`/`applyTx` operations after which the GAS
AssetBalance holds the coin identity ("txG", 0) in `unspent` and in `unconfirmed`
at the same time, so the three identity sets are not pairwise disjoint. -/
theorem C6_counterexample :
    ReachE b2c ∧ ("GAS", ab2c) ∈ b2c.assets ∧
      ("txG", 0) ∈ ab2c.unspent.map cid ∧ ("txG", 0) ∈ ab2c.unconfirmed.map cid := by
  refine ⟨?_, by decide, by decide, by decide⟩
  exact ReachE.applyTx txG false
    (ReachE.applyTx txG true (ReachE.addAsset "GAS" none ReachE.empty) rfl) rfl

/-- C9 fails as stated: adding the same asset symbol twice (Scenario E of the spec)
gives `assetSymbols = ["GAS", "GAS"]`, but the constructor rebuilds `assetSymbols`
from the keys of the exported assets map (lines 32-42 ignore the snapshot's
`assetSymbols` field), so reconstruction from the export yields `["GAS"]` and is
not deep-equal to the original. -/
theorem C9_counterexample : ofLike bDup.exportB ≠ bDup := by decide

/-- C3: spend phase of applyTx, per input. First conjunct: when no scanned
AssetBalance's unspent holds a coin matching the input's (prevHash, prevIndex)
identity, the asset map is returned unchanged, without error. Second conjunct: when
the symbols split as pre ++ s :: post with no match anywhere in pre and the first
matching unspent coin of s's AssetBalance being c (rest the other unspent coins),
the result moves c from unspent to the end of spent of that AssetBalance only —
independently of the symbols in post, which are never scanned. -/
theorem C3_spend_first_match :
    (∀ (a : List (String × AssetBalance)) (syms : List String) (inp : TxInput),
        (∀ s ∈ syms, ∃ ab, lookupA s a = some ab ∧
          ∀ c ∈ ab.unspent, inputMatch inp c = false) →
        spendSyms inp syms a = .ok a) ∧
    (∀ (a : List (String × AssetBalance)) (pre post : List String) (s : String)
        (inp : TxInput) (ab : AssetBalance) (c : Coin) (rest : List Coin),
        (∀ s' ∈ pre, ∃ ab', lookupA s' a = some ab' ∧
          ∀ x ∈ ab'.unspent, inputMatch inp x = false) →
        lookupA s a = some ab →
        spliceFirst (inputMatch inp) ab.unspent = some (c, rest) →
        spendSyms inp (pre ++ s :: post) a =
          .ok (setA s ⟨sumVals rest, rest, ab.spent ++ [c], ab.unconfirmed⟩ a)) := by
  constructor
  · intro a syms inp h
    induction syms with
    | nil => rfl
    | cons s rest ih =>
        obtain ⟨ab, hl, hnm⟩ := h s (List.mem_cons_self s rest)
        have hsp : spliceFirst (inputMatch inp) ab.unspent = none :=
          spliceFirst_eq_none.mpr hnm
        show spendSyms inp (s :: rest) a = .ok a
        simp only [spendSyms, hl, AssetBalance.spendFirst, hsp, Option.map_none']
        exact ih (fun s' hs' => h s' (List.mem_cons_of_mem _ hs'))
  · intro a pre post s inp ab c rest hpre hl hsp
    induction pre with
    | nil =>
        simp only [List.nil_append]
        simp only [spendSyms, hl, AssetBalance.spendFirst, hsp, Option.map_some']
    | cons s' pre' ih =>
        obtain ⟨ab', hl', hnm'⟩ := hpre s' (List.mem_cons_self _ _)
        have hsp' : spliceFirst (inputMatch inp) ab'.unspent = none :=
          spliceFirst_eq_none.mpr hnm'
        simp only [List.cons_append, spendSyms, hl', AssetBalance.spendFirst, hsp',
          Option.map_none']
        exact ih (fun t ht => hpre t (List.mem_cons_of_mem _ ht))

/-- Witness for C3 at concrete data: scanning ["NEO", "GAS"], the NEO AssetBalance
has no matching coin, the GAS AssetBalance holds the referenced coin, and the coin
moves from its unspent to its spent. -/
theorem C3_witness :
    spendSyms inpW ["NEO", "GAS"] assetsW =
      .ok [("NEO", ⟨0, [], [], []⟩), ("GAS", ⟨0, [], [⟨0, "txG", 10⟩], []⟩)] := by
  have h := C3_spend_first_match.2 assetsW ["NEO"] [] "GAS" inpW ab1c
    ⟨0, "txG", 10⟩ []
    (by
      intro s' hs'
      have hs : s' = "NEO" := by simpa using hs'
      subst hs
      exact ⟨⟨0, [], [], []⟩, rfl, by decide⟩)
    rfl rfl
  exact h.trans rfl

theorem drain_drain (ab : AssetBalance) : drain (drain ab) = drain ab := by
  simp [drain]

theorem setA_keys_of_lookup {α : Type} {k : String} {v w : α} :
    ∀ {l : List (String × α)}, lookupA k l = some w →
      (setA k v l).map Prod.fst = l.map Prod.fst
  | [], h => by simp [lookupA] at h
  | (k', v') :: rest, h => by
      by_cases hk : k' = k
      · simp [setA, hk]
      · simp only [lookupA, if_neg hk] at h
        simp [setA, hk, setA_keys_of_lookup h]

theorem lookupA_eq_some_of_mem_nodup {α : Type} :
    ∀ {l : List (String × α)} {p : String × α},
      (l.map Prod.fst).Nodup → p ∈ l → lookupA p.1 l = some p.2
  | [], p, _, hp => by simp at hp
  | q :: rest, p, hnd, hp => by
      rw [List.map_cons] at hnd
      have hnd1 := List.nodup_cons.mp hnd
      rcases List.mem_cons.mp hp with hp | hp
      · subst hp
        rw [show (p :: rest : List (String × α)) = (p.1, p.2) :: rest from rfl]
        simp [lookupA]
      · have hne : q.1 ≠ p.1 := by
          intro he
          exact hnd1.1 (he ▸ List.mem_map_of_mem Prod.fst hp)
        rw [show (q :: rest : List (String × α)) = (q.1, q.2) :: rest from rfl]
        simp only [lookupA, if_neg hne]
        exact lookupA_eq_some_of_mem_nodup hnd1.2 hp

theorem map_setA_id {α : Type} {k : String} {v : α} :
    ∀ {l : List (String × α)}, k ∉ l.map Prod.fst →
      l.map (fun p => if p.1 = k then (k, v) else p) = l
  | [], _ => rfl
  | q :: rest, h => by
      have h1 : q.1 ≠ k := fun he => h (by simp [← he])
      have h2 : k ∉ rest.map Prod.fst := fun hm => h (List.mem_cons_of_mem _ hm)
      simp [h1, map_setA_id h2]

theorem setA_eq_map_of_nodup {α : Type} {k : String} {v : α} :
    ∀ {l : List (String × α)} {w : α}, (l.map Prod.fst).Nodup →
      lookupA k l = some w →
      setA k v l = l.map (fun p => if p.1 = k then (k, v) else p)
  | [], w, _, h => by simp [lookupA] at h
  | q :: rest, w, hnd, h => by
      rw [List.map_cons] at hnd
      have hnd1 := List.nodup_cons.mp hnd
      by_cases hk : q.1 = k
      · rw [show (q :: rest : List (String × α)) = (q.1, q.2) :: rest from rfl]
        simp only [setA, if_pos hk, List.map_cons, if_pos hk]
        have h1 : k ∉ rest.map Prod.fst := by
          rw [← hk]
          exact hnd1.1
        rw [map_setA_id h1]
      · rw [show (q :: rest : List (String × α)) = (q.1, q.2) :: rest from rfl]
        simp only [lookupA, if_neg hk] at h
        simp only [setA, if_neg hk, List.map_cons, if_neg hk]
        rw [setA_eq_map_of_nodup hnd1.2 h]

theorem isSome_lookupA_map_keyed {α : Type} (g : String × α → α) :
    ∀ (l : List (String × α)) (k : String),
      (lookupA k (l.map (fun p => (p.1, g p)))).isSome = (lookupA k l).isSome
  | [], _ => rfl
  | q :: rest, k => by
      by_cases hk : q.1 = k
      · simp [lookupA, hk]
      · simp [lookupA, hk, isSome_lookupA_map_keyed g rest k]

theorem confirmGo_char :
    ∀ (syms : List String) (a : List (String × AssetBalance)),
      (a.map Prod.fst).Nodup → (∀ s ∈ syms, (lookupA s a).isSome) →
      confirmGo syms a =
        .ok (a.map (fun p => (p.1, if p.1 ∈ syms then drain p.2 else p.2)))
  | [], a, _, _ => by
      simp [confirmGo]
  | s :: rest, a, hnd, hwf => by
      obtain ⟨ab, hl⟩ := Option.isSome_iff_exists.mp
        (hwf s (List.mem_cons_self s rest))
      have hnd' : ((setA s (drain ab) a).map Prod.fst).Nodup := by
        rw [setA_keys_of_lookup hl]
        exact hnd
      have hwf' : ∀ t ∈ rest, (lookupA t (setA s (drain ab) a)).isSome :=
        fun t ht => isSome_lookupA_setA (hwf t (List.mem_cons_of_mem _ ht))
      have ih := confirmGo_char rest (setA s (drain ab) a) hnd' hwf'
      show confirmGo (s :: rest) a = _
      simp only [confirmGo, hl, ih]
      rw [setA_eq_map_of_nodup hnd hl, List.map_map]
      congr 1
      refine List.map_congr_left ?_
      intro p hp
      by_cases hps : p.1 = s
      · have h2 := lookupA_eq_some_of_mem_nodup hnd hp
        rw [hps, hl] at h2
        have hab : p.2 = ab := (Option.some.inj h2).symm
        simp [Function.comp, hps, hab, drain_drain, List.mem_cons]
      · simp [Function.comp, hps, List.mem_cons]

/-- C4: for every well-formed Balance (unique map keys; every stored symbol backed
by a map entry — both automatic for JS-constructed balances), `confirm` succeeds and
returns the Balance in which each tracked asset's unconfirmed coins are appended to
the end of its unspent list in order, unconfirmed becomes empty and the cached
balance is recomputed, while spent lists, untracked map entries, address, net, the
symbol lists and the tokens are unchanged; and `confirm` run again on the result
returns it unchanged. -/
theorem C4_confirm_moves_unconfirmed (b : Balance)
    (hnd : (b.assets.map Prod.fst).Nodup)
    (hwf : ∀ s ∈ b.assetSymbols, (lookupA s b.assets).isSome) :
    ∃ b', b.confirm = .ok b' ∧
      b'.address = b.address ∧ b'.net = b.net ∧
      b'.assetSymbols = b.assetSymbols ∧ b'.tokenSymbols = b.tokenSymbols ∧
      b'.tokens = b.tokens ∧
      b'.assets = b.assets.map
        (fun p => (p.1, if p.1 ∈ b.assetSymbols then drain p.2 else p.2)) ∧
      b'.confirm = .ok b' := by
  have hc := confirmGo_char b.assetSymbols b.assets hnd hwf
  refine ⟨{ b with assets := b.assets.map (fun p => (p.1, if p.1 ∈ b.assetSymbols then drain p.2 else p.2)) },
    ?_, rfl, rfl, rfl, rfl, rfl, rfl, ?_⟩
  · show Balance.confirm b = _
    simp only [Balance.confirm, hc]
  · have hnd2 : ((b.assets.map
        (fun p => (p.1, if p.1 ∈ b.assetSymbols then drain p.2 else p.2))).map
        Prod.fst).Nodup := by
      rw [List.map_map]
      exact hnd
    have hwf2 : ∀ s ∈ b.assetSymbols, (lookupA s (b.assets.map
        (fun p => (p.1, if p.1 ∈ b.assetSymbols then drain p.2 else p.2)))).isSome := by
      intro s hs
      rw [isSome_lookupA_map_keyed]
      exact hwf s hs
    have hc2 := confirmGo_char b.assetSymbols
      (b.assets.map (fun p => (p.1, if p.1 ∈ b.assetSymbols then drain p.2 else p.2)))
      hnd2 hwf2
    show Balance.confirm _ = _
    simp only [Balance.confirm, hc2, List.map_map]
    congr 2
    refine List.map_congr_left ?_
    intro p hp
    by_cases hps : p.1 ∈ b.assetSymbols
    · simp [Function.comp, hps, drain_drain]
    · simp [Function.comp, hps]

/-- Witness for C4 at the concrete Balance `b2c`: its GAS unconfirmed coin is
promoted to unspent, everything else unchanged, and confirm is then idempotent. -/
theorem C4_witness :
    ∃ b', b2c.confirm = .ok b' ∧
      b'.address = b2c.address ∧ b'.net = b2c.net ∧
      b'.assetSymbols = b2c.assetSymbols ∧ b'.tokenSymbols = b2c.tokenSymbols ∧
      b'.tokens = b2c.tokens ∧
      b'.assets = b2c.assets.map
        (fun p => (p.1, if p.1 ∈ b2c.assetSymbols then drain p.2 else p.2)) ∧
      b'.confirm = .ok b' :=
  C4_confirm_moves_unconfirmed b2c (by decide) (by decide)

theorem norm_setA {a : List (String × AssetBalance)} {sym : String}
    {ab : AssetBalance} (hab : NormAB ab) (hn : ∀ p ∈ a, NormAB p.2) :
    ∀ p ∈ setA sym ab a, NormAB p.2 := by
  intro p hp
  rcases setA_mem hp with hp' | hp'
  · rw [hp']
    exact hab
  · exact hn p hp'

theorem norm_spendSyms {inp : TxInput} :
    ∀ {syms : List String} {a a' : List (String × AssetBalance)},
      spendSyms inp syms a = .ok a' → (∀ p ∈ a, NormAB p.2) →
      ∀ p ∈ a', NormAB p.2
  | [], a, a', h, hn => by
      simp only [spendSyms, Except.ok.injEq] at h
      subst h
      exact hn
  | s :: rest, a, a', h, hn => by
      cases hl : lookupA s a with
      | none =>
          simp only [spendSyms, hl] at h
          exact Except.noConfusion h
      | some ab =>
          cases hsp : ab.spendFirst (inputMatch inp) with
          | none =>
              simp only [spendSyms, hl, hsp] at h
              exact norm_spendSyms h hn
          | some ab' =>
              simp only [spendSyms, hl, hsp, Except.ok.injEq] at h
              subst h
              refine norm_setA ?_ hn
              simp only [AssetBalance.spendFirst] at hsp
              cases hq : spliceFirst (inputMatch inp) ab.unspent with
              | none => rw [hq] at hsp; exact Option.noConfusion hsp
              | some q =>
                  rw [hq] at hsp
                  simp only [Option.map_some', Option.some.injEq] at hsp
                  rw [← hsp]
                  exact rfl

theorem norm_spendPhase {syms : List String} :
    ∀ {inps : List TxInput} {a a' : List (String × AssetBalance)},
      spendPhase syms inps a = .ok a' → (∀ p ∈ a, NormAB p.2) →
      ∀ p ∈ a', NormAB p.2
  | [], a, a', h, hn => by
      simp only [spendPhase, Except.ok.injEq] at h
      subst h
      exact hn
  | inp :: rest, a, a', h, hn => by
      cases hs : spendSyms inp syms a with
      | error e =>
          simp only [spendPhase, hs] at h
          exact Except.noConfusion h
      | ok a₁ =>
          simp only [spendPhase, hs] at h
          exact norm_spendPhase h (norm_spendSyms hs hn)

theorem norm_applyOutputs {hash : String} {cf : Bool} :
    ∀ {i : Nat} {outs : List TxOutput} {a a' : List (String × AssetBalance)},
      applyOutputs hash cf i outs a = .ok a' → (∀ p ∈ a, NormAB p.2) →
      ∀ p ∈ a', NormAB p.2
  | i, [], a, a', h, hn => by
      simp only [applyOutputs, Except.ok.injEq] at h
      subst h
      exact hn
  | i, o :: rest, a, a', h, hn => by
      cases hA : ASSETS o.assetId with
      | none =>
          simp only [applyOutputs, hA] at h
          exact Except.noConfusion h
      | some sym =>
          cases hl : lookupA sym a with
          | none =>
              simp only [applyOutputs, hA, hl] at h
              exact Except.noConfusion h
          | some ab =>
              have habn : NormAB ab := hn (sym, ab) (lookupA_mem hl)
              cases cf with
              | false =>
                  simp only [applyOutputs, hA, hl, Bool.false_eq_true, if_false] at h
                  exact norm_applyOutputs h (norm_setA habn hn)
              | true =>
                  simp only [applyOutputs, hA, hl, if_true] at h
                  cases hq : spliceFirst
                      (fun el => el.txid == hash && el.index == i)
                      ab.unconfirmed with
                  | none =>
                      rw [hq] at h
                      exact norm_applyOutputs h (norm_setA rfl hn)
                  | some q =>
                      rw [hq] at h
                      exact norm_applyOutputs h (norm_setA rfl hn)

theorem norm_confirmGo :
    ∀ {syms : List String} {a a' : List (String × AssetBalance)},
      confirmGo syms a = .ok a' → (∀ p ∈ a, NormAB p.2) → ∀ p ∈ a', NormAB p.2
  | [], a, a', h, hn => by
      simp only [confirmGo, Except.ok.injEq] at h
      subst h
      exact hn
  | s :: rest, a, a', h, hn => by
      cases hl : lookupA s a with
      | none =>
          simp only [confirmGo, hl] at h
          exact Except.noConfusion h
      | some ab =>
          simp only [confirmGo, hl] at h
          exact norm_confirmGo h (norm_setA rfl hn)

theorem norm_verifyAssetBalance {o : Oracle} {ab ab' : AssetBalance}
    (h : verifyAssetBalance o ab = .ok ab') : NormAB ab' := by
  cases hc : verifyCoins o ab.unspent with
  | error e =>
      simp only [verifyAssetBalance, hc] at h
      exact Except.noConfusion h
  | ok valids =>
      simp only [verifyAssetBalance, hc, Except.ok.injEq] at h
      rw [← h]
      exact rfl

theorem norm_verifyAll {o : Oracle} {a : List (String × AssetBalance)} :
    ∀ {syms : List String} {news : List AssetBalance},
      verifyAll o a syms = .ok news → ∀ ab ∈ news, NormAB ab
  | [], news, h => by
      simp only [verifyAll, Except.ok.injEq] at h
      subst h
      intro ab hab
      simp at hab
  | s :: rest, news, h => by
      cases hl : lookupA s a with
      | none =>
          simp only [verifyAll, hl] at h
          exact Except.noConfusion h
      | some ab =>
          cases hv : verifyAssetBalance o ab with
          | error e =>
              simp only [verifyAll, hl, hv] at h
              exact Except.noConfusion h
          | ok ab' =>
              cases hr : verifyAll o a rest with
              | error e =>
                  simp only [verifyAll, hl, hv, hr] at h
                  exact Except.noConfusion h
              | ok abs =>
                  simp only [verifyAll, hl, hv, hr, Except.ok.injEq] at h
                  subst h
                  intro x hx
                  rcases List.mem_cons.mp hx with hx | hx
                  · rw [hx]
                    exact norm_verifyAssetBalance hv
                  · exact norm_verifyAll hr x hx

theorem norm_foldl_setA :
    ∀ {pairs : List (String × AssetBalance)} {a : List (String × AssetBalance)},
      (∀ p ∈ a, NormAB p.2) → (∀ p ∈ pairs, NormAB p.2) →
      ∀ p ∈ pairs.foldl (fun acc q => setA q.1 q.2 acc) a, NormAB p.2
  | [], a, hn, _, p, hp => hn p hp
  | q :: rest, a, hn, hps, p, hp =>
      norm_foldl_setA (norm_setA (hps q (List.mem_cons_self _ _)) hn)
        (fun x hx => hps x (List.mem_cons_of_mem _ hx)) p hp

theorem norm_fold_addAsset :
    ∀ (entries : List (String × AssetBalanceLike)) (b : Balance),
      (∀ p ∈ b.assets, NormAB p.2) →
      ∀ p ∈ (entries.foldl (fun b q => b.addAsset q.1 (some q.2)) b).assets,
        NormAB p.2
  | [], _, hn, p, hp => hn p hp
  | q :: rest, b, hn, p, hp =>
      norm_fold_addAsset rest _
        (norm_setA (show NormAB (mkAssetBalance (some q.2)) from rfl) hn) p hp

theorem assets_fold_addToken :
    ∀ (entries : List (String × Val)) (b : Balance),
      (entries.foldl (fun b q => b.addToken q.1 q.2) b).assets = b.assets
  | [], _ => rfl
  | q :: rest, b => assets_fold_addToken rest (b.addToken q.1 q.2)

theorem norm_ofLike (bl : BalanceLike) : ∀ p ∈ (ofLike bl).assets, NormAB p.2 := by
  intro p hp
  have he : (ofLike bl).assets =
      (bl.assets.foldl (fun (b : Balance) (q : String × AssetBalanceLike) =>
          b.addAsset q.1 (some q.2))
        ({ address := bl.address, net := if bl.net = "" then "NoNet" else bl.net,
           assetSymbols := [], assets := [], tokenSymbols := [], tokens := [] } :
          Balance)).assets :=
    assets_fold_addToken bl.tokens _
  rw [he] at hp
  exact norm_fold_addAsset bl.assets _
    (by intro x hx; exact absurd hx (List.not_mem_nil x)) p hp

theorem norm_applyTx {b b' : Balance} {tx : Tx} {cf : Bool}
    (h : b.applyTx tx cf = .ok b') (hn : ∀ p ∈ b.assets, NormAB p.2) :
    ∀ p ∈ b'.assets, NormAB p.2 := by
  cases hs : spendPhase b.assetSymbols tx.inputs b.assets with
  | error e =>
      simp only [Balance.applyTx, hs] at h
      exact Except.noConfusion h
  | ok a₁ =>
      cases ho : applyOutputs tx.hash cf 0 tx.outputs a₁ with
      | error e =>
          simp only [Balance.applyTx, hs, ho] at h
          exact Except.noConfusion h
      | ok a₂ =>
          simp only [Balance.applyTx, hs, ho, Except.ok.injEq] at h
          subst h
          exact norm_applyOutputs ho (norm_spendPhase hs hn)

theorem norm_confirm {b b' : Balance} (h : b.confirm = .ok b')
    (hn : ∀ p ∈ b.assets, NormAB p.2) : ∀ p ∈ b'.assets, NormAB p.2 := by
  cases hc : confirmGo b.assetSymbols b.assets with
  | error e =>
      simp only [Balance.confirm, hc] at h
      exact Except.noConfusion h
  | ok a =>
      simp only [Balance.confirm, hc, Except.ok.injEq] at h
      subst h
      exact norm_confirmGo hc hn

theorem norm_verifyAssets {b b' : Balance} {o : Oracle}
    (h : b.verifyAssets o = .ok b') (hn : ∀ p ∈ b.assets, NormAB p.2) :
    ∀ p ∈ b'.assets, NormAB p.2 := by
  cases hv : verifyAll o b.assets b.assetSymbols with
  | error e =>
      simp only [Balance.verifyAssets, hv] at h
      exact Except.noConfusion h
  | ok news =>
      simp only [Balance.verifyAssets, hv, Except.ok.injEq] at h
      subst h
      refine norm_foldl_setA hn ?_
      intro p hp
      rcases p with ⟨s, ab⟩
      exact norm_verifyAll hv ab (List.of_mem_zip hp).2

theorem norm_of_reach : ∀ {b : Balance}, Reach b → ∀ p ∈ b.assets, NormAB p.2 := by
  intro b h
  induction h with
  | base bl => exact norm_ofLike bl
  | addAsset sym abl _ ih => exact norm_setA rfl ih
  | addToken sym v _ ih => exact ih
  | applyTx tx cf _ heq ih => exact norm_applyTx heq ih
  | confirm _ heq ih => exact norm_confirm heq ih
  | verify o _ heq ih => exact norm_verifyAssets heq ih

/-- C5: for every AssetBalance reachable from a constructed Balance by any sequence
of addAsset, addToken, applyTx, confirm and successful verifyAssets operations, the
cached `balance` field equals the sum of the values of the coins in its `unspent`
list — the constructor normalizes it and every mutation that touches `unspent`
re-derives it (the AssetBalance component is modelled from the spec's cached-sum
contract, since its class lives outside src/). -/
theorem C5_balance_invariant (b : Balance) (h : Reach b) :
    ∀ p ∈ b.assets, p.2.balance = sumVals p.2.unspent :=
  norm_of_reach h

/-- Witness for C5: the concrete reachable Balance `b1c` (empty constructor,
addAsset "GAS", one confirmed applyTx) satisfies the cached-balance invariant at
its GAS entry. -/
theorem C5_witness :
    ("GAS", ab1c) ∈ b1c.assets ∧ ab1c.balance = sumVals ab1c.unspent :=
  ⟨by decide,
    C5_balance_invariant b1c
      (Reach.applyTx txG true
        (Reach.addAsset "GAS" none (Reach.base ⟨"", "", [], [], [], []⟩)) rfl)
      ("GAS", ab1c) (by decide)⟩

theorem verifyCoin_eq_ok_coinValid {o : Oracle} {c : Coin} {v : Bool}
    (h : verifyCoin o c = .ok v) : v = coinValid o c := by
  cases hq : o c.txid c.index with
  | error e =>
      simp only [verifyCoin, hq] at h
      exact Except.noConfusion h
  | ok r? =>
      cases r? with
      | none =>
          simp only [verifyCoin, hq, Except.ok.injEq] at h
          subst h
          simp [coinValid, hq]
      | some r =>
          simp only [verifyCoin, hq, Except.ok.injEq] at h
          subst h
          simp [coinValid, hq]

theorem verifyCoins_ok_map {o : Oracle} :
    ∀ {l : List Coin} {vs : List Bool}, verifyCoins o l = .ok vs →
      vs = l.map (coinValid o)
  | [], vs, h => by
      simp only [verifyCoins, Except.ok.injEq] at h
      subst h
      rfl
  | c :: rest, vs, h => by
      cases hc : verifyCoin o c with
      | error e =>
          simp only [verifyCoins, hc] at h
          exact Except.noConfusion h
      | ok v =>
          cases hr : verifyCoins o rest with
          | error e =>
              simp only [verifyCoins, hc, hr] at h
              exact Except.noConfusion h
          | ok vs' =>
              simp only [verifyCoins, hc, hr, Except.ok.injEq] at h
              subst h
              rw [List.map_cons, verifyCoin_eq_ok_coinValid hc,
                verifyCoins_ok_map hr]

theorem verifyCoins_ok_all {o : Oracle} :
    ∀ {l : List Coin} {vs : List Bool}, verifyCoins o l = .ok vs →
      ∀ c ∈ l, ∃ v, verifyCoin o c = .ok v
  | [], vs, _, c, hc => by simp at hc
  | c₀ :: rest, vs, h, c, hc => by
      cases hc0 : verifyCoin o c₀ with
      | error e =>
          simp only [verifyCoins, hc0] at h
          exact Except.noConfusion h
      | ok v =>
          cases hr : verifyCoins o rest with
          | error e =>
              simp only [verifyCoins, hc0, hr] at h
              exact Except.noConfusion h
          | ok vs' =>
              rcases List.mem_cons.mp hc with hc' | hc'
              · subst hc'
                exact ⟨v, hc0⟩
              · exact verifyCoins_ok_all hr c hc'

theorem buildRepl_map (f : Coin → Bool) :
    ∀ (l : List Coin), buildRepl l (l.map f) =
      (l.filter f, l.filter (fun c => !(f c)))
  | [] => rfl
  | c :: rest => by
      simp only [List.map_cons, buildRepl, buildRepl_map f rest]
      by_cases hc : f c
      · simp [List.filter_cons, hc]
      · simp [List.filter_cons, hc]

theorem verifyAssetBalance_ok_repl {o : Oracle} {ab ab' : AssetBalance}
    (h : verifyAssetBalance o ab = .ok ab') : ab' = replAB o ab := by
  cases hc : verifyCoins o ab.unspent with
  | error e =>
      simp only [verifyAssetBalance, hc] at h
      exact Except.noConfusion h
  | ok valids =>
      simp only [verifyAssetBalance, hc, Except.ok.injEq] at h
      have hv : valids = ab.unspent.map (coinValid o) := verifyCoins_ok_map hc
      subst hv
      rw [buildRepl_map (coinValid o) ab.unspent] at h
      rw [← h]
      rfl

theorem verifyAll_ok_news {o : Oracle} {a : List (String × AssetBalance)} :
    ∀ {syms : List String} {news : List AssetBalance},
      verifyAll o a syms = .ok news →
      news = syms.map (fun s => replAB o ((lookupA s a).getD ⟨0, [], [], []⟩)) ∧
        ∀ s ∈ syms, (lookupA s a).isSome
  | [], news, h => by
      simp only [verifyAll, Except.ok.injEq] at h
      subst h
      exact ⟨rfl, by intro s hs; simp at hs⟩
  | s :: rest, news, h => by
      cases hl : lookupA s a with
      | none =>
          simp only [verifyAll, hl] at h
          exact Except.noConfusion h
      | some ab =>
          cases hv : verifyAssetBalance o ab with
          | error e =>
              simp only [verifyAll, hl, hv] at h
              exact Except.noConfusion h
          | ok ab' =>
              cases hr : verifyAll o a rest with
              | error e =>
                  simp only [verifyAll, hl, hv, hr] at h
                  exact Except.noConfusion h
              | ok abs =>
                  simp only [verifyAll, hl, hv, hr, Except.ok.injEq] at h
                  subst h
                  obtain ⟨habs, hwf⟩ := verifyAll_ok_news hr
                  constructor
                  · rw [List.map_cons, habs, hl,
                      verifyAssetBalance_ok_repl hv]
                    rfl
                  · intro t ht
                    rcases List.mem_cons.mp ht with ht' | ht'
                    · subst ht'
                      simp [hl]
                    · exact hwf t ht'

theorem verifyAll_ok_vab {o : Oracle} {a : List (String × AssetBalance)} :
    ∀ {syms : List String} {news : List AssetBalance},
      verifyAll o a syms = .ok news →
      ∀ s ∈ syms, ∀ ab, lookupA s a = some ab →
        ∃ ab', verifyAssetBalance o ab = .ok ab'
  | [], news, _, s, hs, ab, _ => by simp at hs
  | s₀ :: rest, news, h, s, hs, ab, hab => by
      cases hl : lookupA s₀ a with
      | none =>
          simp only [verifyAll, hl] at h
          exact Except.noConfusion h
      | some ab₀ =>
          cases hv : verifyAssetBalance o ab₀ with
          | error e =>
              simp only [verifyAll, hl, hv] at h
              exact Except.noConfusion h
          | ok ab₀' =>
              cases hr : verifyAll o a rest with
              | error e =>
                  simp only [verifyAll, hl, hv, hr] at h
                  exact Except.noConfusion h
              | ok abs =>
                  rcases List.mem_cons.mp hs with hs' | hs'
                  · subst hs'
                    rw [hab] at hl
                    cases hl
                    exact ⟨ab₀', hv⟩
                  · exact verifyAll_ok_vab hr s hs' ab hab

theorem zip_map_self {β : Type} (g : String → β) :
    ∀ (syms : List String), syms.zip (syms.map g) = syms.map (fun s => (s, g s))
  | [] => rfl
  | s :: rest => by simp [zip_map_self g rest]

theorem lookupA_foldl_setA (g : String → AssetBalance) :
    ∀ (syms : List String) (a : List (String × AssetBalance)) (k : String),
      lookupA k
        ((syms.map (fun s => (s, g s))).foldl (fun a p => setA p.1 p.2 a) a) =
        if k ∈ syms then some (g k) else lookupA k a
  | [], a, k => by simp
  | s :: rest, a, k => by
      simp only [List.map_cons, List.foldl_cons]
      rw [lookupA_foldl_setA g rest (setA s (g s) a) k]
      by_cases hk : k ∈ rest
      · simp [hk, List.mem_cons]
      · by_cases hks : k = s
        · subst hks
          simp [hk, lookupA_setA_self, List.mem_cons]
        · simp [hk, hks, lookupA_setA_ne hks, List.mem_cons]

theorem verifyAssets_ok_char {b b' : Balance} {o : Oracle}
    (h : b.verifyAssets o = .ok b') :
    b'.address = b.address ∧ b'.net = b.net ∧
    b'.assetSymbols = b.assetSymbols ∧ b'.tokenSymbols = b.tokenSymbols ∧
    b'.tokens = b.tokens ∧
    (∀ s ∈ b.assetSymbols, ∃ ab, lookupA s b.assets = some ab ∧
        lookupA s b'.assets = some (replAB o ab)) ∧
    (∀ s, s ∉ b.assetSymbols → lookupA s b'.assets = lookupA s b.assets) := by
  cases hv : verifyAll o b.assets b.assetSymbols with
  | error e =>
      simp only [Balance.verifyAssets, hv] at h
      exact Except.noConfusion h
  | ok news =>
      simp only [Balance.verifyAssets, hv, Except.ok.injEq] at h
      obtain ⟨hnews, hwf⟩ := verifyAll_ok_news hv
      subst hnews
      subst h
      refine ⟨rfl, rfl, rfl, rfl, rfl, ?_, ?_⟩
      · intro s hs
        obtain ⟨ab, hab⟩ := Option.isSome_iff_exists.mp (hwf s hs)
        refine ⟨ab, hab, ?_⟩
        dsimp only
        rw [zip_map_self, lookupA_foldl_setA, if_pos hs, hab]
        rfl
      · intro s hs
        dsimp only
        rw [zip_map_self, lookupA_foldl_setA, if_neg hs]

/-- C7: when `verifyAssets` succeeds, a coin is classified valid exactly when the
remote node reported an existing output at its (txid, index) with matching index
and value; and every tracked symbol's AssetBalance is replaced by one whose unspent
list is exactly its valid former-unspent coins in order (balance their sum), whose
spent list is the invalid former-unspent coins, and whose unconfirmed list is empty
regardless of prior content. -/
theorem C7_verify_classification (o : Oracle) (b b' : Balance)
    (h : b.verifyAssets o = .ok b') :
    (∀ c : Coin, verifyCoin o c = .ok true ↔
      ∃ r, o c.txid c.index = .ok (some r) ∧ c.index = r.n ∧ c.value = r.value) ∧
    (∀ s ∈ b.assetSymbols, ∃ ab, lookupA s b.assets = some ab ∧
      lookupA s b'.assets = some ⟨sumVals (ab.unspent.filter (coinValid o)),
        ab.unspent.filter (coinValid o),
        ab.unspent.filter (fun c => !(coinValid o c)), []⟩) := by
  constructor
  · intro c
    cases hq : o c.txid c.index with
    | error e =>
        simp only [verifyCoin, hq]
        constructor
        · intro hh
          exact Except.noConfusion hh
        · rintro ⟨r, hr, -, -⟩
          exact Except.noConfusion hr
    | ok r? =>
        cases r? with
        | none =>
            simp only [verifyCoin, hq]
            constructor
            · intro hh
              simp at hh
            · rintro ⟨r, hr, -, -⟩
              simp at hr
        | some r =>
            simp only [verifyCoin, hq, Except.ok.injEq]
            constructor
            · intro hh
              simp only [Bool.and_eq_true, beq_iff_eq] at hh
              exact ⟨r, rfl, hh.1, hh.2⟩
            · rintro ⟨r', hr', h1, h2⟩
              rw [Option.some.injEq] at hr'
              subst hr'
              simp [Bool.and_eq_true, beq_iff_eq, h1, h2]
  · intro s hs
    obtain ⟨ab, hab, hl'⟩ := (verifyAssets_ok_char h).2.2.2.2.2.1 s hs
    exact ⟨ab, hab, hl'⟩

/-- Witness for C7: Scenario D — one unspent GAS coin of value 5, Verifier reports
it nonexistent; after verifyAssets the replacement has the coin in spent, empty
unspent (balance 0) and empty unconfirmed. -/
theorem C7_witness :
    ∃ ab, lookupA "GAS" bD.assets = some ab ∧
      lookupA "GAS" bD'.assets = some ⟨sumVals (ab.unspent.filter (coinValid oracleD)),
        ab.unspent.filter (coinValid oracleD),
        ab.unspent.filter (fun c => !(coinValid oracleD c)), []⟩ :=
  (C7_verify_classification oracleD bD bD' rfl).2 "GAS" (by decide)

/-- C8: when any single coin's remote query fails during verifyAssets, the whole
call fails (the per-symbol replacements are assigned only in the callback that runs
after every query succeeded, so the assets mapping is untouched — the error result
of the model carries no mutated state). -/
theorem C8_failure_propagates (o : Oracle) (b : Balance)
    (hf : ∃ s ∈ b.assetSymbols, ∃ ab, lookupA s b.assets = some ab ∧
        ∃ c ∈ ab.unspent, ∃ e, o c.txid c.index = .error e) :
    ∃ e, b.verifyAssets o = .error e := by
  cases hv : b.verifyAssets o with
  | error e => exact ⟨e, rfl⟩
  | ok b' =>
      exfalso
      obtain ⟨s, hs, ab, hab, c, hc, e, he⟩ := hf
      cases hva : verifyAll o b.assets b.assetSymbols with
      | error e' =>
          simp only [Balance.verifyAssets, hva] at hv
          exact Except.noConfusion hv
      | ok news =>
          obtain ⟨ab', hvab⟩ := verifyAll_ok_vab hva s hs ab hab
          cases hcs : verifyCoins o ab.unspent with
          | error e' =>
              simp only [verifyAssetBalance, hcs] at hvab
              exact Except.noConfusion hvab
          | ok vs =>
              obtain ⟨v, hvc⟩ := verifyCoins_ok_all hcs c hc
              rw [verifyCoin, he] at hvc
              exact Except.noConfusion hvc

/-- Witness for C8: a Balance with one unspent coin against the always-failing
Verifier — verifyAssets fails. -/
theorem C8_witness : ∃ e, bD.verifyAssets oracleF = .error e :=
  C8_failure_propagates oracleF bD
    ⟨"GAS", by decide, ⟨5, [coinD], [], []⟩, by decide, coinD, by decide,
      JsErr.typeError, rfl⟩

/-- C10: after a successful verifyAssets, each tracked symbol's replacement
AssetBalance has as its spent list exactly the coins of the former unspent list
that failed verification, in order; every coin of its spent list stems from the
former unspent list, so the prior spent history is discarded. -/
theorem C10_replacement_spent (o : Oracle) (b b' : Balance)
    (h : b.verifyAssets o = .ok b') :
    ∀ s ∈ b.assetSymbols, ∃ ab ab', lookupA s b.assets = some ab ∧
      lookupA s b'.assets = some ab' ∧
      ab'.spent = ab.unspent.filter (fun c => !(coinValid o c)) ∧
      ∀ c ∈ ab'.spent, c ∈ ab.unspent := by
  intro s hs
  obtain ⟨ab, hab, hl'⟩ := (verifyAssets_ok_char h).2.2.2.2.2.1 s hs
  refine ⟨ab, replAB o ab, hab, hl', rfl, ?_⟩
  intro c hc
  exact List.mem_of_mem_filter hc

/-- Witness for C10: `bE` holds one unspent coin (reported nonexistent) and one
previously spent coin; the replacement's spent list is exactly the failed unspent
coin, and the prior spent coin is gone. -/
theorem C10_witness :
    ∃ ab ab', lookupA "GAS" bE.assets = some ab ∧
      lookupA "GAS" bE'.assets = some ab' ∧
      ab'.spent = ab.unspent.filter (fun c => !(coinValid oracleD c)) ∧
      ∀ c ∈ ab'.spent, c ∈ ab.unspent :=
  C10_replacement_spent oracleD bE bE' rfl "GAS" (by decide)

theorem spendFirst_allCoins_perm {ab ab' : AssetBalance} {p : Coin → Bool}
    (h : ab.spendFirst p = some ab') : ab'.allCoins.Perm ab.allCoins := by
  simp only [AssetBalance.spendFirst] at h
  cases hq : spliceFirst p ab.unspent with
  | none =>
      rw [hq] at h
      exact Option.noConfusion h
  | some q =>
      rw [hq] at h
      simp only [Option.map_some', Option.some.injEq] at h
      subst h
      have e1 : (AssetBalance.allCoins
          ⟨sumVals q.2, q.2, ab.spent ++ [q.1], ab.unconfirmed⟩) =
          ((q.2 ++ ab.spent) ++ [q.1]) ++ ab.unconfirmed := by
        simp [AssetBalance.allCoins, List.append_assoc]
      rw [e1]
      refine List.Perm.append_right ab.unconfirmed ?_
      refine (List.perm_append_singleton q.1 (q.2 ++ ab.spent)).trans ?_
      have hu : ab.unspent.Perm (q.1 :: q.2) := spliceFirst_perm hq
      exact (hu.append_right ab.spent).symm

theorem drain_allCoins_perm (ab : AssetBalance) :
    (drain ab).allCoins.Perm ab.allCoins := by
  show (((ab.unspent ++ ab.unconfirmed) ++ ab.spent) ++ []).Perm
    ((ab.unspent ++ ab.spent) ++ ab.unconfirmed)
  rw [List.append_nil, List.append_assoc ab.unspent ab.unconfirmed ab.spent,
    List.append_assoc ab.unspent ab.spent ab.unconfirmed]
  exact List.Perm.append_left ab.unspent List.perm_append_comm

theorem disj_setA {a : List (String × AssetBalance)} {sym : String}
    {ab : AssetBalance} (hab : DisjAB ab) (hn : ∀ p ∈ a, DisjAB p.2) :
    ∀ p ∈ setA sym ab a, DisjAB p.2 := by
  intro p hp
  rcases setA_mem hp with hp' | hp'
  · rw [hp']
    exact hab
  · exact hn p hp'

theorem nodup_cons_cid {hash : String} {i : Nat} {v : Val} {l : List Coin}
    (hnd : (l.map cid).Nodup) (hlt : ∀ c ∈ l, c.txid = hash → c.index < i) :
    (((⟨i, hash, v⟩ : Coin) :: l).map cid).Nodup := by
  rw [List.map_cons, List.nodup_cons]
  refine ⟨?_, hnd⟩
  intro hmem
  obtain ⟨c, hc, hcid⟩ := List.mem_map.mp hmem
  have h1 : c.txid = hash := congrArg Prod.fst hcid
  have h2 : c.index = i := congrArg Prod.snd hcid
  exact absurd (h2 ▸ hlt c hc h1) (lt_irrefl i)

theorem spend_good {hash : String} {inp : TxInput} :
    ∀ {syms : List String} {a a' : List (String × AssetBalance)},
      spendSyms inp syms a = .ok a' →
      (∀ p ∈ a, DisjAB p.2 ∧ ∀ c ∈ p.2.allCoins, c.txid ≠ hash) →
      ∀ p ∈ a', DisjAB p.2 ∧ ∀ c ∈ p.2.allCoins, c.txid ≠ hash
  | [], a, a', h, hn => by
      simp only [spendSyms, Except.ok.injEq] at h
      subst h
      exact hn
  | s :: rest, a, a', h, hn => by
      cases hl : lookupA s a with
      | none =>
          simp only [spendSyms, hl] at h
          exact Except.noConfusion h
      | some ab =>
          cases hsp : ab.spendFirst (inputMatch inp) with
          | none =>
              simp only [spendSyms, hl, hsp] at h
              exact spend_good h hn
          | some ab' =>
              simp only [spendSyms, hl, hsp, Except.ok.injEq] at h
              subst h
              intro p hp
              rcases setA_mem hp with hp' | hp'
              · subst hp'
                obtain ⟨habd, habf⟩ := hn (s, ab) (lookupA_mem hl)
                have hperm := spendFirst_allCoins_perm hsp
                constructor
                · exact ((hperm.map cid).nodup_iff).mpr habd
                · intro c hc
                  exact habf c (hperm.mem_iff.mp hc)
              · exact hn p hp'

theorem spendPhase_good {hash : String} {syms : List String} :
    ∀ {inps : List TxInput} {a a' : List (String × AssetBalance)},
      spendPhase syms inps a = .ok a' →
      (∀ p ∈ a, DisjAB p.2 ∧ ∀ c ∈ p.2.allCoins, c.txid ≠ hash) →
      ∀ p ∈ a', DisjAB p.2 ∧ ∀ c ∈ p.2.allCoins, c.txid ≠ hash
  | [], a, a', h, hn => by
      simp only [spendPhase, Except.ok.injEq] at h
      subst h
      exact hn
  | inp :: rest, a, a', h, hn => by
      cases hs : spendSyms inp syms a with
      | error e =>
          simp only [spendPhase, hs] at h
          exact Except.noConfusion h
      | ok a₁ =>
          simp only [spendPhase, hs] at h
          exact spendPhase_good h (spend_good hs hn)

theorem disj_confirmGo :
    ∀ {syms : List String} {a a' : List (String × AssetBalance)},
      confirmGo syms a = .ok a' → (∀ p ∈ a, DisjAB p.2) → ∀ p ∈ a', DisjAB p.2
  | [], a, a', h, hn => by
      simp only [confirmGo, Except.ok.injEq] at h
      subst h
      exact hn
  | s :: rest, a, a', h, hn => by
      cases hl : lookupA s a with
      | none =>
          simp only [confirmGo, hl] at h
          exact Except.noConfusion h
      | some ab =>
          simp only [confirmGo, hl] at h
          refine disj_confirmGo h (disj_setA ?_ hn)
          exact (((drain_allCoins_perm ab).map cid).nodup_iff).mpr
            (hn (s, ab) (lookupA_mem hl))

theorem disj_applyOutputs {hash : String} {cf : Bool} :
    ∀ {i : Nat} {outs : List TxOutput} {a a' : List (String × AssetBalance)},
      applyOutputs hash cf i outs a = .ok a' →
      (∀ p ∈ a, DisjAB p.2 ∧ ∀ c ∈ p.2.allCoins, c.txid = hash → c.index < i) →
      ∀ p ∈ a', DisjAB p.2
  | i, [], a, a', h, hinv => by
      simp only [applyOutputs, Except.ok.injEq] at h
      subst h
      exact fun p hp => (hinv p hp).1
  | i, o :: rest, a, a', h, hinv => by
      cases hA : ASSETS o.assetId with
      | none =>
          simp only [applyOutputs, hA] at h
          exact Except.noConfusion h
      | some sym =>
          cases hl : lookupA sym a with
          | none =>
              simp only [applyOutputs, hA, hl] at h
              exact Except.noConfusion h
          | some ab =>
              obtain ⟨habd, habf⟩ := hinv (sym, ab) (lookupA_mem hl)
              cases cf with
              | false =>
                  simp only [applyOutputs, hA, hl, Bool.false_eq_true, if_false] at h
                  refine disj_applyOutputs h ?_
                  intro p hp
                  rcases setA_mem hp with hp' | hp'
                  · subst hp'
                    have hperm : (AssetBalance.allCoins
                        { ab with unconfirmed :=
                            ab.unconfirmed ++ [⟨i, hash, o.value⟩] }).Perm
                        ((⟨i, hash, o.value⟩ : Coin) :: ab.allCoins) := by
                      show ((ab.unspent ++ ab.spent) ++
                        (ab.unconfirmed ++ [(⟨i, hash, o.value⟩ : Coin)])).Perm
                        ((⟨i, hash, o.value⟩ : Coin) :: ab.allCoins)
                      rw [← List.append_assoc]
                      exact List.perm_append_singleton _ _
                    constructor
                    · exact ((hperm.map cid).nodup_iff).mpr
                        (nodup_cons_cid habd habf)
                    · intro c hc hch
                      rcases List.mem_cons.mp (hperm.mem_iff.mp hc) with hc' | hc'
                      · rw [hc']
                        exact Nat.lt_succ_self i
                      · exact Nat.lt_succ_of_lt (habf c hc' hch)
                  · obtain ⟨h1, h2⟩ := hinv p hp'
                    exact ⟨h1, fun c hc hch => Nat.lt_succ_of_lt (h2 c hc hch)⟩
              | true =>
                  have hnone : spliceFirst
                      (fun el => el.txid == hash && el.index == i)
                      ab.unconfirmed = none := by
                    refine spliceFirst_eq_none.mpr ?_
                    intro el hel
                    have helm : el ∈ ab.allCoins :=
                      List.mem_append_right _ hel
                    by_cases ht : el.txid = hash
                    · have hlt := habf el helm ht
                      have hne : (el.index == i) = false := by
                        simp [Nat.ne_of_lt hlt]
                      simp [hne]
                    · have hne : (el.txid == hash) = false := by
                        simp [ht]
                      simp [hne]
                  simp only [applyOutputs, hA, hl, if_true, hnone] at h
                  refine disj_applyOutputs h ?_
                  intro p hp
                  rcases setA_mem hp with hp' | hp'
                  · subst hp'
                    have hperm : (AssetBalance.allCoins
                        ⟨sumVals (ab.unspent ++ [⟨i, hash, o.value⟩]),
                          ab.unspent ++ [⟨i, hash, o.value⟩], ab.spent,
                          ab.unconfirmed⟩).Perm
                        ((⟨i, hash, o.value⟩ : Coin) :: ab.allCoins) := by
                      show (((ab.unspent ++ [(⟨i, hash, o.value⟩ : Coin)]) ++
                        ab.spent) ++ ab.unconfirmed).Perm
                        (((⟨i, hash, o.value⟩ : Coin) ::
                          (ab.unspent ++ ab.spent)) ++ ab.unconfirmed)
                      rw [List.append_assoc ab.unspent
                        [(⟨i, hash, o.value⟩ : Coin)] ab.spent]
                      exact List.Perm.append_right ab.unconfirmed List.perm_middle
                    constructor
                    · exact ((hperm.map cid).nodup_iff).mpr
                        (nodup_cons_cid habd habf)
                    · intro c hc hch
                      rcases List.mem_cons.mp (hperm.mem_iff.mp hc) with hc' | hc'
                      · rw [hc']
                        exact Nat.lt_succ_self i
                      · exact Nat.lt_succ_of_lt (habf c hc' hch)
                  · obtain ⟨h1, h2⟩ := hinv p hp'
                    exact ⟨h1, fun c hc hch => Nat.lt_succ_of_lt (h2 c hc hch)⟩

theorem disj_applyTx {b b' : Balance} {tx : Tx} {cf : Bool}
    (h : b.applyTx tx cf = .ok b') (hfresh : freshTx b tx)
    (hn : ∀ p ∈ b.assets, DisjAB p.2) : ∀ p ∈ b'.assets, DisjAB p.2 := by
  cases hs : spendPhase b.assetSymbols tx.inputs b.assets with
  | error e =>
      simp only [Balance.applyTx, hs] at h
      exact Except.noConfusion h
  | ok a₁ =>
      cases ho : applyOutputs tx.hash cf 0 tx.outputs a₁ with
      | error e =>
          simp only [Balance.applyTx, hs, ho] at h
          exact Except.noConfusion h
      | ok a₂ =>
          simp only [Balance.applyTx, hs, ho, Except.ok.injEq] at h
          subst h
          have hgood : ∀ p ∈ a₁, DisjAB p.2 ∧
              ∀ c ∈ p.2.allCoins, c.txid ≠ tx.hash :=
            spendPhase_good hs (fun p hp => ⟨hn p hp, hfresh p hp⟩)
          refine disj_applyOutputs ho ?_
          intro p hp
          obtain ⟨h1, h2⟩ := hgood p hp
          exact ⟨h1, fun c hc hch => absurd hch (h2 c hc)⟩

theorem disj_confirm {b b' : Balance} (h : b.confirm = .ok b')
    (hn : ∀ p ∈ b.assets, DisjAB p.2) : ∀ p ∈ b'.assets, DisjAB p.2 := by
  cases hc : confirmGo b.assetSymbols b.assets with
  | error e =>
      simp only [Balance.confirm, hc] at h
      exact Except.noConfusion h
  | ok a =>
      simp only [Balance.confirm, hc, Except.ok.injEq] at h
      subst h
      exact disj_confirmGo hc hn

theorem disj_of_reachF : ∀ {b : Balance}, ReachF b → ∀ p ∈ b.assets, DisjAB p.2 := by
  intro b h
  induction h with
  | empty => intro p hp; exact absurd hp (List.not_mem_nil p)
  | addAsset sym abl _ hd ih => exact disj_setA hd ih
  | applyTx tx cf _ hfresh heq ih => exact disj_applyTx heq hfresh ih
  | confirm _ heq ih => exact disj_confirm heq ih

/-- C6 (amended): for every AssetBalance reachable from the empty Balance by any
sequence of addAsset with snapshots whose coin identities are globally unique
within the snapshot, applyTx restricted to transactions whose hash is not the txid
of any currently tracked coin (the caller deduplication by transaction hash that
the spec's applyTx edge-case note demands), and confirm, the coin-identity sets of
unspent, spent and unconfirmed are pairwise disjoint. -/
theorem C6_amended_disjoint (b : Balance) (h : ReachF b) :
    ∀ p ∈ b.assets,
      (p.2.unspent.map cid).Disjoint (p.2.spent.map cid) ∧
      (p.2.unspent.map cid).Disjoint (p.2.unconfirmed.map cid) ∧
      (p.2.spent.map cid).Disjoint (p.2.unconfirmed.map cid) := by
  intro p hp
  have hd : ((p.2.unspent.map cid ++ p.2.spent.map cid) ++
      p.2.unconfirmed.map cid).Nodup := by
    have := disj_of_reachF h p hp
    rw [DisjAB, AssetBalance.allCoins, List.map_append, List.map_append] at this
    exact this
  obtain ⟨h12, h3, hd3⟩ := List.nodup_append.mp hd
  obtain ⟨h1, h2, hd2⟩ := List.nodup_append.mp h12
  refine ⟨hd2, ?_, ?_⟩
  · intro x hx hx'
    exact hd3 (List.mem_append_left _ hx) hx'
  · intro x hx hx'
    exact hd3 (List.mem_append_right _ hx) hx'

/-- Witness for C6 (amended): the concrete balance `b1c`, reached by addAsset "GAS"
(zeroed snapshot) and one fresh confirmed applyTx, has pairwise disjoint identity
sets on its GAS entry. -/
theorem C6_amended_witness :
    (ab1c.unspent.map cid).Disjoint (ab1c.spent.map cid) ∧
    (ab1c.unspent.map cid).Disjoint (ab1c.unconfirmed.map cid) ∧
    (ab1c.spent.map cid).Disjoint (ab1c.unconfirmed.map cid) :=
  C6_amended_disjoint b1c
    (ReachF.applyTx txG true
      (ReachF.addAsset "GAS" none ReachF.empty
        (show ((mkAssetBalance none).allCoins.map cid).Nodup from by decide))
      (show ∀ p ∈ bGas.assets, ∀ c ∈ p.2.allCoins, c.txid ≠ txG.hash from
        by decide)
      rfl)
    ("GAS", ab1c) (by decide)

theorem setA_append_of_absent {α : Type} {k : String} {v : α} :
    ∀ {l : List (String × α)}, lookupA k l = none → setA k v l = l ++ [(k, v)]
  | [], _ => rfl
  | (k', v') :: rest, h => by
      by_cases hk : k' = k
      · simp only [lookupA, if_pos hk] at h
        exact Option.noConfusion h
      · simp only [lookupA, if_neg hk] at h
        simp [setA, hk, setA_append_of_absent h]

theorem lookupA_append_none {α : Type} {k : String} :
    ∀ {l₁ : List (String × α)} (l₂ : List (String × α)),
      lookupA k l₁ = none → lookupA k (l₁ ++ l₂) = lookupA k l₂
  | [], l₂, _ => rfl
  | (k', v') :: rest, l₂, h => by
      by_cases hk : k' = k
      · simp only [lookupA, if_pos hk] at h
        exact Option.noConfusion h
      · simp only [lookupA, if_neg hk] at h
        simp only [List.cons_append, lookupA, if_neg hk]
        exact lookupA_append_none l₂ h

theorem build_assets_fold :
    ∀ (entries : List (String × AssetBalanceLike)) (b0 : Balance),
      (∀ p ∈ entries, jsToUpper p.1 = p.1) →
      (∀ p ∈ entries, lookupA p.1 b0.assets = none) →
      (entries.map Prod.fst).Nodup →
      entries.foldl (fun (bb : Balance) (q : String × AssetBalanceLike) =>
        bb.addAsset q.1 (some q.2)) b0 =
      { b0 with
        assetSymbols := b0.assetSymbols ++ entries.map Prod.fst
        assets := b0.assets ++
          entries.map (fun q => (q.1, mkAssetBalance (some q.2))) }
  | [], b0, _, _, _ => by simp
  | q :: rest, b0, hup, habs, hnd => by
      have hq1 : jsToUpper q.1 = q.1 := hup q (List.mem_cons_self _ _)
      rw [List.map_cons] at hnd
      have hnd1 := List.nodup_cons.mp hnd
      have hb1 : b0.addAsset q.1 (some q.2) =
          { b0 with assetSymbols := b0.assetSymbols ++ [q.1]
                    assets := b0.assets ++ [(q.1, mkAssetBalance (some q.2))] } := by
        show ({ b0 with
          assetSymbols := b0.assetSymbols ++ [jsToUpper q.1]
          assets :=
            setA (jsToUpper q.1) (mkAssetBalance (some q.2)) b0.assets } :
              Balance) = _
        rw [hq1, setA_append_of_absent (habs q (List.mem_cons_self _ _))]
      have habs' : ∀ p ∈ rest, lookupA p.1
          ({ b0 with assetSymbols := b0.assetSymbols ++ [q.1]
                     assets := b0.assets ++ [(q.1, mkAssetBalance (some q.2))] } :
            Balance).assets = none := by
        intro p hp
        dsimp only
        rw [lookupA_append_none _ (habs p (List.mem_cons_of_mem _ hp))]
        have hne : q.1 ≠ p.1 := by
          intro he
          exact hnd1.1 (he ▸ List.mem_map_of_mem Prod.fst hp)
        simp [lookupA, hne]
      have ih := build_assets_fold rest _
        (fun p hp => hup p (List.mem_cons_of_mem _ hp)) habs' hnd1.2
      rw [List.foldl_cons, hb1, ih]
      simp [List.append_assoc]

theorem build_tokens_fold :
    ∀ (entries : List (String × Val)) (b0 : Balance),
      (∀ p ∈ entries, jsToUpper p.1 = p.1) →
      (∀ p ∈ entries, lookupA p.1 b0.tokens = none) →
      (entries.map Prod.fst).Nodup →
      entries.foldl (fun (bb : Balance) (q : String × Val) =>
        bb.addToken q.1 q.2) b0 =
      { b0 with
        tokenSymbols := b0.tokenSymbols ++ entries.map Prod.fst
        tokens := b0.tokens ++ entries }
  | [], b0, _, _, _ => by simp
  | q :: rest, b0, hup, habs, hnd => by
      have hq1 : jsToUpper q.1 = q.1 := hup q (List.mem_cons_self _ _)
      rw [List.map_cons] at hnd
      have hnd1 := List.nodup_cons.mp hnd
      have hb1 : b0.addToken q.1 q.2 =
          { b0 with tokenSymbols := b0.tokenSymbols ++ [q.1]
                    tokens := b0.tokens ++ [q] } := by
        show ({ b0 with
          tokenSymbols := b0.tokenSymbols ++ [jsToUpper q.1]
          tokens := setA (jsToUpper q.1) q.2 b0.tokens } : Balance) = _
        rw [hq1, setA_append_of_absent (habs q (List.mem_cons_self _ _))]
      have habs' : ∀ p ∈ rest, lookupA p.1
          ({ b0 with tokenSymbols := b0.tokenSymbols ++ [q.1]
                     tokens := b0.tokens ++ [q] } : Balance).tokens = none := by
        intro p hp
        dsimp only
        rw [lookupA_append_none _ (habs p (List.mem_cons_of_mem _ hp))]
        have hne : q.1 ≠ p.1 := by
          intro he
          exact hnd1.1 (he ▸ List.mem_map_of_mem Prod.fst hp)
        show (if q.1 = p.1 then some q.2 else lookupA p.1 []) = none
        simp [hne, lookupA]
      have ih := build_tokens_fold rest _
        (fun p hp => hup p (List.mem_cons_of_mem _ hp)) habs' hnd1.2
      rw [List.foldl_cons, hb1, ih]
      simp [List.append_assoc]

/-- C9 (amended): for every Balance in canonical form — net nonempty, assetSymbols
exactly the asset-map keys in stored order, keys free of duplicates and fixed under
upper-casing, each AssetBalance's cached balance the sum of its unspent values, and
the token side likewise — reconstructing a Balance from the record produced by
export yields the original Balance. (Balances with duplicate assetSymbols, Scenario
E, are excluded: the constructor rebuilds assetSymbols from the map keys.) -/
theorem C9_amended_roundtrip (b : Balance)
    (hnet : b.net ≠ "")
    (hsy : b.assetSymbols = b.assets.map Prod.fst)
    (hnd : (b.assets.map Prod.fst).Nodup)
    (hkeys : ∀ p ∈ b.assets, jsToUpper p.1 = p.1)
    (hbal : ∀ p ∈ b.assets, p.2.balance = sumVals p.2.unspent)
    (hty : b.tokenSymbols = b.tokens.map Prod.fst)
    (htnd : (b.tokens.map Prod.fst).Nodup)
    (htk : ∀ p ∈ b.tokens, jsToUpper p.1 = p.1) :
    ofLike b.exportB = b := by
  have hup : ∀ p ∈ b.assets.map
      (fun p => (p.1, AssetBalance.exportB p.2)), jsToUpper p.1 = p.1 := by
    intro p hp
    obtain ⟨p₀, hp₀, hpe⟩ := List.mem_map.mp hp
    rw [← hpe]
    exact hkeys p₀ hp₀
  have hnd2 : ((b.assets.map
      (fun p => (p.1, AssetBalance.exportB p.2))).map Prod.fst).Nodup := by
    rw [List.map_map]
    exact hnd
  have h1 := build_assets_fold
    (b.assets.map (fun p => (p.1, AssetBalance.exportB p.2)))
    ({ address := b.address, net := b.net, assetSymbols := [], assets := [],
       tokenSymbols := [], tokens := [] } : Balance)
    hup (fun p _ => rfl) hnd2
  have hassets : (b.assets.map (fun p => (p.1, AssetBalance.exportB p.2))).map
      (fun q => (q.1, mkAssetBalance (some q.2))) = b.assets := by
    rw [List.map_map]
    have hpt : ∀ p ∈ b.assets, ((fun q => (q.1, mkAssetBalance (some q.2))) ∘
        (fun p => (p.1, AssetBalance.exportB p.2))) p = p := by
      intro p hp
      have hb := hbal p hp
      rcases p with ⟨k, bal, u, s, c⟩
      simp only [Function.comp, mkAssetBalance, AssetBalance.exportB] at *
      simp [hb]
    rw [List.map_congr_left hpt]
    exact List.map_id' b.assets
  have hkeys2 : (b.assets.map
      (fun p => (p.1, AssetBalance.exportB p.2))).map Prod.fst =
      b.assets.map Prod.fst := by
    rw [List.map_map]
    rfl
  have h2 := build_tokens_fold b.tokens
    ({ address := b.address, net := b.net,
       assetSymbols := [] ++ (b.assets.map
         (fun p => (p.1, AssetBalance.exportB p.2))).map Prod.fst,
       assets := [] ++ (b.assets.map
         (fun p => (p.1, AssetBalance.exportB p.2))).map
           (fun q => (q.1, mkAssetBalance (some q.2))),
       tokenSymbols := [], tokens := [] } : Balance)
    htk (fun p _ => rfl) htnd
  have e0 : ofLike b.exportB =
      b.tokens.foldl (fun (bb : Balance) (q : String × Val) =>
        bb.addToken q.1 q.2)
        ((b.assets.map (fun p => (p.1, AssetBalance.exportB p.2))).foldl
          (fun (bb : Balance) (q : String × AssetBalanceLike) =>
            bb.addAsset q.1 (some q.2))
          ({ address := b.address, net := b.net, assetSymbols := [],
             assets := [], tokenSymbols := [], tokens := [] } : Balance)) := by
    unfold ofLike Balance.exportB
    dsimp only
    rw [if_neg hnet]
  rw [e0, h1, h2]
  dsimp only
  rw [List.nil_append, List.nil_append, List.nil_append, List.nil_append,
    hassets, hkeys2, ← hsy, ← hty]

/-- Witness for C9 (amended): the concrete canonical Balance `bW2` round-trips
through export and reconstruction. -/
theorem C9_witness : ofLike bW2.exportB = bW2 :=
  C9_amended_roundtrip bW2 (by decide) (by decide) (by decide) (by decide)
    (by decide) (by decide) (by decide) (by decide)
